import Mathlib

/-!
Verification of the substore storage layer (`crates/storage/src/store/substore.rs`)
and the stateless transaction checks (`app/src/action_handler/transaction/stateless.rs`).

The embedding models byte strings as `List Nat`, the RocksDB column families as
association lists of (key, value) byte strings kept in ascending lexicographic
key order, and the external collaborators (the `jmt` Merkle tree library and the
physical RocksDB engine) as function parameters constrained at their documented
interface boundary.
-/

namespace Penumbra

/-- Byte strings: lists of naturals (each byte is < 256 where it matters). -/
abbrev Bytes := List Nat

/-- Strict bytewise lexicographic order on byte strings, as RocksDB compares keys. -/
def bytesLt : Bytes → Bytes → Bool
  | [], [] => false
  | [], _ :: _ => true
  | _ :: _, [] => false
  | a :: as, b :: bs => if a < b then true else if b < a then false else bytesLt as bs

/-- Reflexive bytewise lexicographic order on byte strings. -/
def bytesLe : Bytes → Bytes → Bool
  | [], _ => true
  | _ :: _, [] => false
  | a :: as, b :: bs => if a < b then true else if b < a then false else bytesLe as bs

/-- Big-endian base-256 digits of `v`, `n` bytes wide: models `u64::to_be_bytes`
for `n = 8` and `v < 2^64`. -/
def beBytes : Nat → Nat → Bytes
  | 0, _ => []
  | n + 1, v => (v / 256 ^ n) :: beBytes n (v % 256 ^ n)

/-- Value of a big-endian digit string. -/
def beVal (bs : Bytes) : Nat := bs.foldl (fun a b => a * 256 + b) 0

@[simp] theorem length_beBytes (n v : Nat) : (beBytes n v).length = n := by
  induction n generalizing v with
  | zero => rfl
  | succ n ih => simp [beBytes, ih]

theorem beVal_foldl (n v a : Nat) (hv : v < 256 ^ n) :
    (beBytes n v).foldl (fun acc b => acc * 256 + b) a = a * 256 ^ n + v := by
  induction n generalizing v a with
  | zero =>
    interval_cases v
    simp [beBytes]
  | succ n ih =>
    have hmod : v % 256 ^ n < 256 ^ n := Nat.mod_lt _ (Nat.pos_pow_of_pos n (by norm_num))
    simp only [beBytes, List.foldl_cons]
    rw [ih _ _ hmod]
    have hsplit : (a * 256 + v / 256 ^ n) * 256 ^ n + v % 256 ^ n
        = a * (256 ^ n * 256) + (256 ^ n * (v / 256 ^ n) + v % 256 ^ n) := by ring
    rw [hsplit, Nat.div_add_mod, pow_succ]

/-- Round trip: `beVal` recovers the value encoded by `beBytes`. -/
theorem beVal_beBytes (n v : Nat) (hv : v < 256 ^ n) : beVal (beBytes n v) = v := by
  simpa using beVal_foldl n v 0 hv

/-- Lexicographic comparison of equal-width big-endian encodings matches numeric
comparison, with arbitrary suffixes appended. -/
theorem bytesLt_beBytes_append (n v1 v2 : Nat) (r1 r2 : Bytes)
    (h12 : v1 < v2) (h2 : v2 < 256 ^ n) :
    bytesLt (beBytes n v1 ++ r1) (beBytes n v2 ++ r2) = true := by
  induction n generalizing v1 v2 with
  | zero =>
    simp at h2
    omega
  | succ n ih =>
    have h1 : v1 < 256 ^ (n + 1) := lt_trans h12 h2
    have hq : v1 / 256 ^ n ≤ v2 / 256 ^ n := Nat.div_le_div_right (le_of_lt h12)
    simp only [beBytes, List.cons_append, bytesLt]
    rcases lt_or_eq_of_le hq with hlt | heq
    · simp [hlt]
    · have hd1 : 256 ^ n * (v1 / 256 ^ n) + v1 % 256 ^ n = v1 := Nat.div_add_mod v1 (256 ^ n)
      have hd2 : 256 ^ n * (v2 / 256 ^ n) + v2 % 256 ^ n = v2 := Nat.div_add_mod v2 (256 ^ n)
      rw [heq] at hd1
      have hmlt : v1 % 256 ^ n < v2 % 256 ^ n := by omega
      have hm2 : v2 % 256 ^ n < 256 ^ n := Nat.mod_lt _ (Nat.pos_pow_of_pos n (by norm_num))
      simp [heq, ih _ _ hmlt hm2]

/-- Equal-width big-endian encodings of distinct values are distinct. -/
theorem beBytes_inj (n v1 v2 : Nat) (h1 : v1 < 256 ^ n) (h2 : v2 < 256 ^ n)
    (h : beBytes n v1 = beBytes n v2) : v1 = v2 := by
  have := beVal_beBytes n v1 h1
  have := beVal_beBytes n v2 h2
  rw [h] at *
  omega

theorem bytesLt_irrefl (a : Bytes) : bytesLt a a = false := by
  induction a with
  | nil => rfl
  | cons x xs ih => simp [bytesLt, ih]

theorem bytesLt_asymm (a b : Bytes) (h : bytesLt a b = true) : bytesLt b a = false := by
  induction a generalizing b with
  | nil =>
    cases b with
    | nil => simp [bytesLt] at h
    | cons y ys => rfl
  | cons x xs ih =>
    cases b with
    | nil => simp only [bytesLt] at h; exact absurd h (by simp)
    | cons y ys =>
      by_cases hxy : x < y
      · have hyx : ¬ y < x := by omega
        simp [bytesLt, hyx, hxy, Nat.lt_asymm hxy]
      · by_cases hyx : y < x
        · simp [bytesLt, hxy, hyx] at h
        · have hst : bytesLt xs ys = true := by simpa [bytesLt, hxy, hyx] using h
          simp [bytesLt, hxy, hyx, ih ys hst]

/-- Lexicographic comparison of two strings with equal-length leading segments:
the leading segments decide unless they are equal. -/
theorem bytesLt_append_left (a b s t : Bytes) (hlen : a.length = b.length) :
    bytesLt (a ++ s) (b ++ t) = if a = b then bytesLt s t else bytesLt a b := by
  induction a generalizing b with
  | nil =>
    cases b with
    | nil => simp
    | cons y ys => simp at hlen
  | cons x xs ih =>
    cases b with
    | nil => simp at hlen
    | cons y ys =>
      simp only [List.length_cons, Nat.succ.injEq] at hlen
      by_cases hxy : x < y
      · have hne : x :: xs ≠ y :: ys := by intro hc; cases hc; omega
        simp [bytesLt, hxy, hne]
      · by_cases hyx : y < x
        · have hne : x :: xs ≠ y :: ys := by intro hc; cases hc; omega
          simp [bytesLt, hxy, hyx, hne]
        · have hx : x = y := by omega
          subst hx
          by_cases hab : xs = ys
          · subst hab
            simp [bytesLt, ih xs rfl]
          · have hne : x :: xs ≠ x :: ys := by simp [hab]
            simp [bytesLt, ih ys hlen, hab, hne]

theorem bytesLe_append_left (a b s t : Bytes) (hlen : a.length = b.length) :
    bytesLe (a ++ s) (b ++ t) = if a = b then bytesLe s t else bytesLt a b := by
  induction a generalizing b with
  | nil =>
    cases b with
    | nil => simp
    | cons y ys => simp at hlen
  | cons x xs ih =>
    cases b with
    | nil => simp at hlen
    | cons y ys =>
      simp only [List.length_cons, Nat.succ.injEq] at hlen
      by_cases hxy : x < y
      · have hne : x :: xs ≠ y :: ys := by intro hc; cases hc; omega
        simp [bytesLe, bytesLt, hxy, hne]
      · by_cases hyx : y < x
        · have hne : x :: xs ≠ y :: ys := by intro hc; cases hc; omega
          simp [bytesLe, bytesLt, hxy, hyx, hne]
        · have hx : x = y := by omega
          subst hx
          by_cases hab : xs = ys
          · subst hab
            simp [bytesLe, bytesLt, ih xs rfl]
          · have hne : x :: xs ≠ x :: ys := by simp [hab]
            simp [bytesLe, bytesLt, ih ys hlen, hab, hne]

/-- Numeric comparison decides lexicographic comparison of equal-width
big-endian encodings. -/
theorem bytesLt_beBytes_iff (n v1 v2 : Nat) (h1 : v1 < 256 ^ n) (h2 : v2 < 256 ^ n) :
    bytesLt (beBytes n v1) (beBytes n v2) = true ↔ v1 < v2 := by
  constructor
  · intro h
    by_contra hge
    rcases Nat.lt_or_ge v2 v1 with hlt | hle
    · have := bytesLt_beBytes_append n v2 v1 [] [] hlt h1
      simp only [List.append_nil] at this
      have := bytesLt_asymm _ _ this
      rw [this] at h
      exact Bool.noConfusion h
    · have hv : v1 = v2 := by omega
      subst hv
      rw [bytesLt_irrefl] at h
      exact Bool.noConfusion h
  · intro h
    have := bytesLt_beBytes_append n v1 v2 [] [] h h2
    simpa using this

theorem bytesLe_eq_not_bytesLt (a b : Bytes) (hlen : a.length = b.length) :
    bytesLe a b = !bytesLt b a := by
  induction a generalizing b with
  | nil =>
    cases b with
    | nil => rfl
    | cons y ys => simp at hlen
  | cons x xs ih =>
    cases b with
    | nil => simp at hlen
    | cons y ys =>
      simp only [List.length_cons, Nat.succ.injEq] at hlen
      by_cases hxy : x < y
      · simp [bytesLe, bytesLt, hxy, Nat.lt_asymm hxy]
      · by_cases hyx : y < x
        · simp [bytesLe, bytesLt, hxy, hyx]
        · simp [bytesLe, bytesLt, hxy, hyx, ih ys hlen]

theorem bytesLe_beBytes_iff (n v1 v2 : Nat) (h1 : v1 < 256 ^ n) (h2 : v2 < 256 ^ n) :
    bytesLe (beBytes n v1) (beBytes n v2) = true ↔ v1 ≤ v2 := by
  rw [bytesLe_eq_not_bytesLt (beBytes n v1) (beBytes n v2) (by simp)]
  rcases Nat.lt_or_ge v2 v1 with hlt | hle
  · rw [(bytesLt_beBytes_iff n v2 v1 h2 h1).mpr hlt]
    simp
    omega
  · have : bytesLt (beBytes n v2) (beBytes n v1) = false := by
      by_contra hc
      have := (bytesLt_beBytes_iff n v2 v1 h2 h1).mp (by revert hc; cases bytesLt (beBytes n v2) (beBytes n v1) <;> simp)
      omega
    rw [this]
    simp
    omega

/-! ## Node keys and the order-preserving `DbNodeKey` encoding -/

/-- Model of `jmt::storage::NodeKey`: a node identifier scoped to the version at
which the node was created, with the tree-internal nibble path kept as opaque
bytes (the tree library's internals are out of scope). -/
structure NodeKey where
  version : Nat
  nibblePath : Bytes
  deriving DecidableEq

/-- Embedding of `DbNodeKey::encode`: the version as 8 big-endian bytes followed
by the tree library's own serialization `ser` of the full node key (the external
`borsh` serialization, supplied as a parameter). -/
def DbNodeKey.encode (ser : NodeKey → Bytes) (k : NodeKey) : Bytes :=
  beBytes 8 k.version ++ ser k

/-- Embedding of `DbNodeKey::decode`: a byte string shorter than 8 bytes is a
corruption error (`none` here); otherwise the version bytes are ignored and the
remainder is deserialized with the tree library's `deser`. -/
def DbNodeKey.decode (deser : Bytes → Option NodeKey) (bs : Bytes) : Option NodeKey :=
  if bs.length < 8 then none else deser (List.drop 8 bs)

/-- Concrete stand-in for the external `borsh` serialization of a node key, used
to instantiate witnesses: the version in 8 bytes followed by the path bytes. -/
def nodeKeySerModel (k : NodeKey) : Bytes :=
  beBytes 8 k.version ++ k.nibblePath

/-- Concrete stand-in for the external `borsh` deserialization of a node key,
the inverse of `nodeKeySerModel` on versions below `2^64`. -/
def nodeKeyDeserModel (bs : Bytes) : Option NodeKey :=
  if bs.length < 8 then none
  else some ⟨beVal (List.take 8 bs), List.drop 8 bs⟩

/-- C5: for every two node keys with versions `v1 < v2` and arbitrary (possibly
different) remainders, the encoded byte sequence of the first compares strictly
less than that of the second under bytewise lexicographic order. -/
theorem C5_dbNodeKey_encode_order (ser1 ser2 : NodeKey → Bytes) (k1 k2 : NodeKey)
    (h12 : k1.version < k2.version) (h2 : k2.version < 2 ^ 64) :
    bytesLt (DbNodeKey.encode ser1 k1) (DbNodeKey.encode ser2 k2) = true := by
  have hpow : (256 : Nat) ^ 8 = 2 ^ 64 := by norm_num
  exact bytesLt_beBytes_append 8 _ _ _ _ h12 (by rw [hpow]; exact h2)

/-- C5 witness: the encoding of version 1 sorts before the encoding of version 2
even when the version-1 key has a longer remainder. -/
theorem C5_dbNodeKey_encode_order_witness :
    (1 : Nat) < 2 ∧ (2 : Nat) < 2 ^ 64 ∧
      bytesLt (DbNodeKey.encode nodeKeySerModel ⟨1, [9, 9, 9]⟩)
        (DbNodeKey.encode nodeKeySerModel ⟨2, []⟩) = true :=
  ⟨by decide, by decide,
    C5_dbNodeKey_encode_order nodeKeySerModel nodeKeySerModel ⟨1, [9, 9, 9]⟩ ⟨2, []⟩
      (by decide) (by decide)⟩

/-- C6: decoding the encoding of a node key succeeds and returns the same key,
given that the external tree-library serialization round-trips. -/
theorem C6_dbNodeKey_roundtrip (ser : NodeKey → Bytes) (deser : Bytes → Option NodeKey)
    (k : NodeKey) (h : deser (ser k) = some k) :
    DbNodeKey.decode deser (DbNodeKey.encode ser k) = some k := by
  unfold DbNodeKey.decode DbNodeKey.encode
  rw [if_neg (by simp)]
  have hdrop : List.drop 8 (beBytes 8 k.version ++ ser k) = ser k := by
    have hd := List.drop_left (beBytes 8 k.version) (ser k)
    rwa [length_beBytes] at hd
  rw [hdrop, h]

/-- C6 witness: the round trip evaluated at a concrete node key with the model
serialization. -/
theorem C6_dbNodeKey_roundtrip_witness :
    nodeKeyDeserModel (nodeKeySerModel ⟨7, [3, 4]⟩) = some ⟨7, [3, 4]⟩ ∧
      DbNodeKey.decode nodeKeyDeserModel (DbNodeKey.encode nodeKeySerModel ⟨7, [3, 4]⟩)
        = some ⟨7, [3, 4]⟩ :=
  ⟨by decide, C6_dbNodeKey_roundtrip nodeKeySerModel nodeKeyDeserModel ⟨7, [3, 4]⟩ (by decide)⟩

/-! ## Snapshot reads: `get_jmt` and `root_hash` -/

/-- The pre-genesis sentinel version: `u64::MAX`. -/
def U64MAX : Nat := 2 ^ 64 - 1

/-- Errors surfaced by the external `jmt` tree library, modelled at the
interface boundary: the distinguished `MissingRootError` and any other error. -/
inductive TreeError where
  | missingRoot
  | other (msg : String)
  deriving DecidableEq

/-- Discriminator modelling `e.downcast_ref::<jmt::MissingRootError>().is_some()`. -/
def TreeError.isMissingRoot : TreeError → Bool
  | .missingRoot => true
  | .other _ => false

/-- Embedding of `SubstoreSnapshot::get_jmt`: delegate to the external tree
library's plain lookup (`treeGet`, a parameter standing for `jmt::Sha256Jmt::get`
against this snapshot); convert a missing-root error into `none` exactly when the
snapshot version is the pre-genesis sentinel `u64::MAX`. -/
def get_jmt (treeGet : Bytes → Nat → Except TreeError (Option Bytes))
    (key : Bytes) (version : Nat) : Except TreeError (Option Bytes) :=
  match treeGet key version with
  | .ok (some value) => .ok (some value)
  | .ok none => .ok none
  | .error e =>
    if e.isMissingRoot && version == U64MAX then .ok none else .error e

/-- The canonical all-zero root hash `jmt::RootHash([0; 32])`. -/
def zeroRootHash : Bytes := List.replicate 32 0

/-- Embedding of `SubstoreSnapshot::root_hash`: ask the external tree library for
the optional root hash at the snapshot version (`getRootHashOption`, a parameter
standing for `jmt::Sha256Jmt::get_root_hash_option`) and substitute the all-zero
root when no root exists. -/
def root_hash (getRootHashOption : Nat → Except TreeError (Option Bytes))
    (version : Nat) : Except TreeError Bytes :=
  match getRootHashOption version with
  | .ok (some r) => .ok r
  | .ok none => .ok zeroRootHash
  | .error e => .error e

theorem get_jmt_missing_root_eq (treeGet : Bytes → Nat → Except TreeError (Option Bytes))
    (key : Bytes) (version : Nat)
    (h : treeGet key version = .error .missingRoot) :
    get_jmt treeGet key version
      = if version = U64MAX then .ok none else .error .missingRoot := by
  unfold get_jmt
  rw [h]
  by_cases hv : version = U64MAX
  · simp [hv, TreeError.isMissingRoot]
  · simp [hv, TreeError.isMissingRoot]

/-- C3: when the tree lookup fails with a missing-root error, `get_jmt` returns
the success value "not found" if and only if the snapshot version is the
pre-genesis sentinel `u64::MAX`; at any other version the error propagates. -/
theorem C3_get_jmt_missing_root (treeGet : Bytes → Nat → Except TreeError (Option Bytes))
    (key : Bytes) (version : Nat)
    (h : treeGet key version = .error .missingRoot) :
    get_jmt treeGet key version
      = if version = U64MAX then .ok none else .error .missingRoot :=
  get_jmt_missing_root_eq treeGet key version h

/-- C3 witness: concrete evaluation at the sentinel version and at version 5. -/
theorem C3_get_jmt_missing_root_witness :
    get_jmt (fun _ _ => .error .missingRoot) [1] U64MAX = .ok none ∧
      get_jmt (fun _ _ => .error .missingRoot) [1] 5 = .error .missingRoot := by
  constructor
  · have h := C3_get_jmt_missing_root (fun _ _ => .error .missingRoot) [1] U64MAX rfl
    simpa using h
  · have h := C3_get_jmt_missing_root (fun _ _ => .error .missingRoot) [1] 5 rfl
    have h5 : (5 : Nat) ≠ U64MAX := by decide
    simpa [h5] using h

/-- C8: on a fresh namespace with no commits — where the external tree reports no
root at the snapshot version, and reports a missing root for every key lookup at
the pre-genesis sentinel version — `root_hash` returns the canonical all-zero
root without error, and every key lookup returns "not found" without error. -/
theorem C8_empty_tree_read (getRootHashOption : Nat → Except TreeError (Option Bytes))
    (treeGet : Bytes → Nat → Except TreeError (Option Bytes)) (version : Nat)
    (hRoot : getRootHashOption version = .ok none)
    (hGet : ∀ key, treeGet key version = .error .missingRoot)
    (hVersion : version = U64MAX) :
    root_hash getRootHashOption version = .ok zeroRootHash ∧
      ∀ key, get_jmt treeGet key version = .ok none := by
  constructor
  · unfold root_hash
    rw [hRoot]
  · intro key
    rw [get_jmt_missing_root_eq treeGet key version (hGet key)]
    simp [hVersion]

/-- C8 witness: concrete evaluation on the empty-tree boundary behaviour. -/
theorem C8_empty_tree_read_witness :
    root_hash (fun _ => .ok none) U64MAX = .ok zeroRootHash ∧
      get_jmt (fun _ _ => .error .missingRoot) [2, 3] U64MAX = .ok none := by
  have h := C8_empty_tree_read (fun _ => .ok none) (fun _ _ => .error .missingRoot)
    U64MAX rfl (fun _ => rfl) rfl
  exact ⟨h.1, h.2 [2, 3]⟩

/-! ## Stateless transaction check: `no_duplicate_nullifiers` -/

/-- Loop of `no_duplicate_nullifiers`: walk the spent nullifiers keeping the set
seen so far (`BTreeSet`, modelled as the list of elements already inserted);
`BTreeSet::replace` returns the previously-present equal element, which the
source surfaces in the error. -/
def noDupLoop (seen : List Nat) : List Nat → Except Nat Unit
  | [] => .ok ()
  | nf :: rest => if nf ∈ seen then .error nf else noDupLoop (nf :: seen) rest

/-- Embedding of `no_duplicate_nullifiers`: disallow multiple spends of the same
nullifier within one transaction, reporting the first duplicate found. -/
def no_duplicate_nullifiers (spentNullifiers : List Nat) : Except Nat Unit :=
  noDupLoop [] spentNullifiers

theorem noDupLoop_ok_iff (seen rest : List Nat) :
    noDupLoop seen rest = .ok () ↔ rest.Nodup ∧ ∀ x ∈ seen, x ∉ rest := by
  induction rest generalizing seen with
  | nil => simp [noDupLoop]
  | cons nf tl ih =>
    by_cases hmem : nf ∈ seen
    · simp only [noDupLoop, if_pos hmem]
      constructor
      · intro hc
        exact absurd hc (by simp)
      · rintro ⟨-, hdisj⟩
        exact absurd (show nf ∈ nf :: tl by simp) (hdisj nf hmem)
    · simp only [noDupLoop, if_neg hmem, ih]
      rw [List.nodup_cons]
      constructor
      · rintro ⟨htl, hdisj⟩
        refine ⟨⟨hdisj nf (by simp), htl⟩, ?_⟩
        intro x hx
        simp only [List.mem_cons, not_or]
        refine ⟨?_, hdisj x (by simp [hx])⟩
        rintro rfl
        exact hmem hx
      · rintro ⟨⟨hnf, htl⟩, hdisj⟩
        refine ⟨htl, ?_⟩
        intro x hx
        rcases List.mem_cons.mp hx with rfl | hx2
        · exact hnf
        · intro hc
          have := hdisj x hx2
          simp only [List.mem_cons, not_or] at this
          exact this.2 hc

theorem noDupLoop_error_count (seen rest : List Nat) (nf : Nat)
    (h : noDupLoop seen rest = .error nf) :
    (nf ∈ seen ∧ nf ∈ rest) ∨ 2 ≤ rest.count nf := by
  induction rest generalizing seen with
  | nil => exact absurd h (by simp [noDupLoop])
  | cons hd tl ih =>
    by_cases hmem : hd ∈ seen
    · simp only [noDupLoop, if_pos hmem] at h
      cases h
      exact Or.inl ⟨hmem, by simp⟩
    · simp only [noDupLoop, if_neg hmem] at h
      rcases ih (hd :: seen) h with ⟨hseen, htl⟩ | hcount
      · rcases List.mem_cons.mp hseen with rfl | hseen2
        · right
          have h1 : 1 ≤ tl.count nf := List.count_pos_iff.mpr htl
          have hcc : (nf :: tl).count nf = tl.count nf + 1 := by simp [List.count_cons]
          omega
        · exact Or.inl ⟨hseen2, by simp [htl]⟩
      · right
        have hcc : (hd :: tl).count nf = tl.count nf + if hd = nf then 1 else 0 := by
          simp [List.count_cons]
        by_cases hnf : hd = nf
        · rw [hcc, if_pos hnf]; omega
        · rw [hcc, if_neg hnf]; omega

/-- C10: `no_duplicate_nullifiers` succeeds exactly when no nullifier appears
more than once among the transaction's spent nullifiers, and a failure names a
nullifier that appears at least twice. -/
theorem C10_no_duplicate_nullifiers (spentNullifiers : List Nat) :
    (no_duplicate_nullifiers spentNullifiers = .ok () ↔ spentNullifiers.Nodup) ∧
      ∀ nf, no_duplicate_nullifiers spentNullifiers = .error nf →
        2 ≤ spentNullifiers.count nf := by
  constructor
  · rw [no_duplicate_nullifiers, noDupLoop_ok_iff]
    simp
  · intro nf herr
    rw [no_duplicate_nullifiers] at herr
    rcases noDupLoop_error_count [] spentNullifiers nf herr with ⟨hseen, -⟩ | hcount
    · exact absurd hseen (by simp)
    · exact hcount

/-- C10 witness: a duplicate-free list passes; `[1, 2, 1]` fails naming 1,
which indeed appears twice. -/
theorem C10_no_duplicate_nullifiers_witness :
    no_duplicate_nullifiers [1, 2, 3] = .ok () ∧ 2 ≤ List.count 1 [1, 2, 1] :=
  ⟨(C10_no_duplicate_nullifiers [1, 2, 3]).1.mpr (by decide),
    (C10_no_duplicate_nullifiers [1, 2, 1]).2 1 rfl⟩

/-! ## Rightmost-leaf query over the tree-nodes partition -/

/-- Model of a stored `jmt::Node` at the granularity this layer inspects: an
internal node or a leaf, payloads kept opaque. -/
inductive Node where
  | internal (payload : Bytes)
  | leaf (payload : Bytes)
  deriving DecidableEq

/-- Concrete stand-in for the external `borsh` parsing of a stored node, used to
instantiate witnesses: tag byte 1 is an internal node, tag byte 2 a leaf. -/
def nodeParseModel : Bytes → Option Node
  | 1 :: rest => some (Node.internal rest)
  | 2 :: rest => some (Node.leaf rest)
  | _ => none

/-- Embedding of `get_rightmost_leaf` (both the `SubstoreConfig` variant on the
live handle and the `TreeReader` variant on the snapshot, which have identical
bodies): seek to the last entry of the tree-nodes column family; decode its key
and parse its node (failures are errors); return the pair when the node is a
leaf, and absence when the partition is empty — or, as the source is written,
when the rightmost node is not a leaf. -/
def get_rightmost_leaf (deser : Bytes → Option NodeKey) (parseNode : Bytes → Option Node)
    (cfJmt : List (Bytes × Bytes)) : Except String (Option (NodeKey × Bytes)) :=
  match cfJmt.getLast? with
  | none => .ok none
  | some e =>
    match DbNodeKey.decode deser e.1 with
    | none => .error "failed to decode node key"
    | some nodeKey =>
      match parseNode e.2 with
      | none => .error "failed to parse node"
      | some (Node.leaf payload) => .ok (some (nodeKey, payload))
      | some (Node.internal _) => .ok none

/-- Embedding of `SubstoreConfig::latest_version`: the version of the rightmost
leaf, when there is one. -/
def latest_version (deser : Bytes → Option NodeKey) (parseNode : Bytes → Option Node)
    (cfJmt : List (Bytes × Bytes)) : Except String (Option Nat) :=
  (get_rightmost_leaf deser parseNode cfJmt).map (fun r => r.map (fun e => e.1.version))

/-- C4 counterexample: a tree-nodes partition whose rightmost entry decodes to an
internal node makes `get_rightmost_leaf` return the plain absence result
`.ok none` — not an error — which is exactly the result of the empty partition,
and `latest_version` likewise reports no version rather than a fault. -/
theorem C4_counterexample :
    get_rightmost_leaf nodeKeyDeserModel nodeParseModel
        [(DbNodeKey.encode nodeKeySerModel ⟨3, []⟩, [1])] = .ok none ∧
      get_rightmost_leaf nodeKeyDeserModel nodeParseModel [] = .ok none ∧
      latest_version nodeKeyDeserModel nodeParseModel
        [(DbNodeKey.encode nodeKeySerModel ⟨3, []⟩, [1])] = .ok none :=
  ⟨rfl, rfl, rfl⟩

/-- C4 (amended): when the rightmost entry of the tree-nodes partition decodes
successfully and parses as an internal node rather than a leaf, the
rightmost-leaf query returns the absence result `.ok none` without error — the
same observable result as an empty partition — and `latest_version` accordingly
reports no committed version. -/
theorem C4_rightmost_internal (deser : Bytes → Option NodeKey)
    (parseNode : Bytes → Option Node) (cfJmt : List (Bytes × Bytes))
    (e : Bytes × Bytes) (payload : Bytes)
    (hlast : cfJmt.getLast? = some e)
    (hdec : (DbNodeKey.decode deser e.1).isSome)
    (hnode : parseNode e.2 = some (Node.internal payload)) :
    get_rightmost_leaf deser parseNode cfJmt = .ok none ∧
      latest_version deser parseNode cfJmt = .ok none := by
  have hmain : get_rightmost_leaf deser parseNode cfJmt = .ok none := by
    unfold get_rightmost_leaf
    rw [hlast]
    rcases hd : DbNodeKey.decode deser e.1 with - | nodeKey
    · rw [hd] at hdec
      exact absurd hdec (by simp)
    · simp only [hd, hnode]
  exact ⟨hmain, by rw [latest_version, hmain]; rfl⟩

/-- C4 witness: the amended statement evaluated on a concrete partition whose
rightmost entry is an internal node. -/
theorem C4_rightmost_internal_witness :
    get_rightmost_leaf nodeKeyDeserModel nodeParseModel
        [(DbNodeKey.encode nodeKeySerModel ⟨5, [2]⟩, [1, 8])] = .ok none ∧
      latest_version nodeKeyDeserModel nodeParseModel
        [(DbNodeKey.encode nodeKeySerModel ⟨5, [2]⟩, [1, 8])] = .ok none :=
  C4_rightmost_internal nodeKeyDeserModel nodeParseModel _ _ [8] rfl (by decide) rfl

/-! ## The live store, write operations, and the commit pipeline -/

/-- Point lookup in an association-list column family (`get_cf`). -/
def mapGet (cf : List (Bytes × Bytes)) (k : Bytes) : Option Bytes :=
  (cf.find? (fun e => e.1 == k)).map (fun e => e.2)

/-- Upsert into an association-list column family (`put_cf`). -/
def mapPut (cf : List (Bytes × Bytes)) (k v : Bytes) : List (Bytes × Bytes) :=
  (k, v) :: cf.filter (fun e => !(e.1 == k))

/-- Key deletion from an association-list column family (`delete_cf`). -/
def mapDel (cf : List (Bytes × Bytes)) (k : Bytes) : List (Bytes × Bytes) :=
  cf.filter (fun e => !(e.1 == k))

theorem mapGet_cons (e : Bytes × Bytes) (rest : List (Bytes × Bytes)) (k : Bytes) :
    mapGet (e :: rest) k = if e.1 = k then some e.2 else mapGet rest k := by
  by_cases he : e.1 = k
  · simp [mapGet, List.find?_cons, he]
  · simp [mapGet, List.find?_cons, he]

theorem mapGet_filter_ne (cf : List (Bytes × Bytes)) (k k2 : Bytes) (h : k2 ≠ k) :
    mapGet (cf.filter (fun e => !(e.1 == k))) k2 = mapGet cf k2 := by
  induction cf with
  | nil => rfl
  | cons e rest ih =>
    by_cases he : e.1 = k
    · have hne : ¬ e.1 = k2 := by
        rw [he]
        exact fun hc => h hc.symm
      rw [List.filter_cons_of_neg (by simp [he]), ih, mapGet_cons, if_neg hne]
    · rw [List.filter_cons_of_pos (by simp [he]), mapGet_cons, mapGet_cons, ih]

theorem mapGet_put_self (cf : List (Bytes × Bytes)) (k v : Bytes) :
    mapGet (mapPut cf k v) k = some v := by
  rw [mapPut, mapGet_cons, if_pos rfl]

theorem mapGet_put_other (cf : List (Bytes × Bytes)) (k v k2 : Bytes) (h : k2 ≠ k) :
    mapGet (mapPut cf k v) k2 = mapGet cf k2 := by
  rw [mapPut, mapGet_cons, if_neg (fun hc => h hc.symm), mapGet_filter_ne cf k k2 h]

theorem mapGet_del_self (cf : List (Bytes × Bytes)) (k : Bytes) :
    mapGet (mapDel cf k) k = none := by
  rw [mapDel]
  induction cf with
  | nil => rfl
  | cons e rest ih =>
    by_cases he : e.1 = k
    · rw [List.filter_cons_of_neg (by simp [he]), ih]
    · rw [List.filter_cons_of_pos (by simp [he]), mapGet_cons, if_neg he, ih]

theorem mapGet_del_other (cf : List (Bytes × Bytes)) (k k2 : Bytes) (h : k2 ≠ k) :
    mapGet (mapDel cf k) k2 = mapGet cf k2 := by
  rw [mapDel, mapGet_filter_ne cf k k2 h]

/-- The five column families of one substore (§3: tree-nodes, preimage-index,
value-log, hash-to-preimage index, non-verifiable store). -/
inductive CfId where
  | jmt
  | jmtKeys
  | jmtValues
  | jmtKeysByKeyhash
  | nonverifiable
  deriving DecidableEq

/-- A single backing-store write: a keyed upsert or a key deletion in one
column family. -/
inductive WOp where
  | put (cf : CfId) (key value : Bytes)
  | del (cf : CfId) (key : Bytes)
  deriving DecidableEq

/-- The column family a write operation targets. -/
def WOp.cfId : WOp → CfId
  | .put cf _ _ => cf
  | .del cf _ => cf

/-- The live backing store of one substore: its five column families. -/
structure StoreState where
  cfJmt : List (Bytes × Bytes)
  cfJmtKeys : List (Bytes × Bytes)
  cfJmtValues : List (Bytes × Bytes)
  cfJmtKeysByKeyhash : List (Bytes × Bytes)
  cfNonverifiable : List (Bytes × Bytes)
  deriving DecidableEq

/-- The store with all five column families empty. -/
def emptyStore : StoreState := ⟨[], [], [], [], []⟩

/-- Apply one write operation to the live store. -/
def applyOp (s : StoreState) : WOp → StoreState
  | .put .jmt k v => { s with cfJmt := mapPut s.cfJmt k v }
  | .put .jmtKeys k v => { s with cfJmtKeys := mapPut s.cfJmtKeys k v }
  | .put .jmtValues k v => { s with cfJmtValues := mapPut s.cfJmtValues k v }
  | .put .jmtKeysByKeyhash k v => { s with cfJmtKeysByKeyhash := mapPut s.cfJmtKeysByKeyhash k v }
  | .put .nonverifiable k v => { s with cfNonverifiable := mapPut s.cfNonverifiable k v }
  | .del .jmt k => { s with cfJmt := mapDel s.cfJmt k }
  | .del .jmtKeys k => { s with cfJmtKeys := mapDel s.cfJmtKeys k }
  | .del .jmtValues k => { s with cfJmtValues := mapDel s.cfJmtValues k }
  | .del .jmtKeysByKeyhash k => { s with cfJmtKeysByKeyhash := mapDel s.cfJmtKeysByKeyhash k }
  | .del .nonverifiable k => { s with cfNonverifiable := mapDel s.cfNonverifiable k }

/-- Execute write operations in order against the live store. `failAt i = true`
makes the i-th backing-store write fail with a RocksDB error, which the source
propagates with `?`, stopping execution at that point. The first component
records whether every write succeeded. -/
def runOps (failAt : Nat → Bool) : List WOp → Nat → StoreState → Bool × StoreState
  | [], _, s => (true, s)
  | op :: rest, n, s =>
    if failAt n then (false, s)
    else runOps failAt rest (n + 1) (applyOp s op)

/-- The caller-supplied change-set (`crate::Cache`): pending verifiable writes
(`Some` = upsert, `None` = delete) and pending non-verifiable writes. -/
structure Cache where
  unwritten_changes : List (Bytes × Option Bytes)
  nonverifiable_changes : List (Bytes × Option Bytes)
  deriving DecidableEq

/-- The node batch produced by the external `jmt::put_value_set`: tree nodes
(already serialized, opaque here) keyed by node key, and versioned optional
values keyed by (version, key hash). -/
structure NodeBatch where
  nodes : List (NodeKey × Bytes)
  values : List ((Nat × Bytes) × Option Bytes)

/-- Modelled from the spec: `VersionedKeyHash::encode` lives in
`crates/storage/src/storage.rs`, which is not under `src/` here; §4.1 specifies
the encoding as the fixed-width key-hash concatenated with the big-endian
fixed-width version. -/
def VersionedKeyHash.encode (keyHash : Bytes) (version : Nat) : Bytes :=
  keyHash ++ beBytes 8 version

/-- Little-endian base-256 digits, `n` bytes wide: models `u32::to_le_bytes`. -/
def leBytes : Nat → Nat → Bytes
  | 0, _ => []
  | n + 1, v => (v % 256) :: leBytes n (v / 256)

/-- Model of the `borsh` serialization of an `Option<Vec<u8>>` value-log entry:
tag 0 for an explicit tombstone, tag 1 followed by the 4-byte little-endian
length and the payload for a present value. -/
def borshOptionSer : Option Bytes → Bytes
  | none => [0]
  | some bs => 1 :: (leBytes 4 bs.length ++ bs)

/-- Key-hash and preimage index writes of `SubstoreStorage::commit`: for each
verifiable change in order, an upsert writes preimage→hash then hash→preimage;
a delete removes both entries. -/
def indexOps (hashFn : Bytes → Bytes) (changes : List (Bytes × Option Bytes)) : List WOp :=
  changes.flatMap (fun change =>
    match change.2 with
    | some _ => [.put .jmtKeys change.1 (hashFn change.1),
                 .put .jmtKeysByKeyhash (hashFn change.1) change.1]
    | none => [.del .jmtKeys change.1,
               .del .jmtKeysByKeyhash (hashFn change.1)])

/-- Writes of `TreeWriter::write_node_batch` for `SubstoreStorage`: every node
under its order-preserving `DbNodeKey` encoding, then every value under its
versioned key, a tombstone being stored as an explicit entry rather than a key
deletion. -/
def write_node_batch_ops (ser : NodeKey → Bytes) (batch : NodeBatch) : List WOp :=
  batch.nodes.map (fun n => .put .jmt (DbNodeKey.encode ser n.1) n.2) ++
    batch.values.map (fun v =>
      .put .jmtValues (VersionedKeyHash.encode v.1.2 v.1.1) (borshOptionSer v.2))

/-- Non-verifiable writes of `SubstoreStorage::commit`: an upsert writes the
value, a delete removes the key. -/
def nonverifiableOps (changes : List (Bytes × Option Bytes)) : List WOp :=
  changes.map (fun change =>
    match change.2 with
    | some v => .put .nonverifiable change.1 v
    | none => .del .nonverifiable change.1)

/-- The ordered write sequence of one `SubstoreStorage::commit`: the key-hash and
preimage index updates, then the node batch produced by the external
`put_value_set` over the hashed verifiable changes, then the non-verifiable
changes. `putValueSet` stands for `jmt::Sha256Jmt::put_value_set` reading
against the pre-commit snapshot. -/
def commitOps (hashFn : Bytes → Bytes) (ser : NodeKey → Bytes)
    (putValueSet : List (Bytes × Option Bytes) → Nat → Bytes × NodeBatch)
    (cache : Cache) (newVersion : Nat) : List WOp :=
  indexOps hashFn cache.unwritten_changes ++
    write_node_batch_ops ser
      (putValueSet (cache.unwritten_changes.map (fun c => (hashFn c.1, c.2))) newVersion).2 ++
    nonverifiableOps cache.nonverifiable_changes

/-- Embedding of `SubstoreStorage::commit`: performs the write sequence
`commitOps` against the live store, propagating the first backing-store write
failure as an error; on success returns the root hash computed by the external
`put_value_set`. The second component is the state of the live store when
`commit` returns. -/
def commit (failAt : Nat → Bool) (hashFn : Bytes → Bytes) (ser : NodeKey → Bytes)
    (putValueSet : List (Bytes × Option Bytes) → Nat → Bytes × NodeBatch)
    (cache : Cache) (newVersion : Nat) (s0 : StoreState) :
    Except Unit Bytes × StoreState :=
  let root :=
    (putValueSet (cache.unwritten_changes.map (fun c => (hashFn c.1, c.2))) newVersion).1
  match runOps failAt (commitOps hashFn ser putValueSet cache newVersion) 0 s0 with
  | (true, s1) => (.ok root, s1)
  | (false, s1) => (.error (), s1)

theorem runOps_false_iff (failAt : Nat → Bool) (ops : List WOp) (n : Nat) (s : StoreState) :
    (runOps failAt ops n s).1 = false ↔ ∃ i < ops.length, failAt (n + i) = true := by
  induction ops generalizing n s with
  | nil => simp [runOps]
  | cons op rest ih =>
    by_cases hf : failAt n
    · have hrun : runOps failAt (op :: rest) n s = (false, s) := by
        simp [runOps, hf]
      rw [hrun]
      constructor
      · intro _
        exact ⟨0, by simp, by simpa using hf⟩
      · intro _
        rfl
    · have hrun : runOps failAt (op :: rest) n s = runOps failAt rest (n + 1) (applyOp s op) := by
        simp [runOps, hf]
      rw [hrun, ih]
      constructor
      · rintro ⟨i, hi, hfi⟩
        exact ⟨i + 1, by simp only [List.length_cons]; omega,
          by rw [show n + (i + 1) = n + 1 + i by omega]; exact hfi⟩
      · rintro ⟨i, hi, hfi⟩
        cases i with
        | zero =>
          rw [Nat.add_zero] at hfi
          exact absurd hfi (by simpa using hf)
        | succ j =>
          refine ⟨j, ?_, ?_⟩
          · simp only [List.length_cons] at hi
            omega
          · rw [show n + 1 + j = n + (j + 1) by omega]
            exact hfi

/-- C1 (amended): a backing-store write failure during a commit aborts the commit
with an error, and a commit with no failing write succeeds — `commit` returns an
error exactly when some operation of its ordered write sequence fails. The
companion counterexample shows the abort is not atomic: writes applied before
the failure remain visible, so the claim's "no partial effect is visible through
a single atomic batch" part does not hold of the source. -/
theorem C1_commit_error_propagation (failAt : Nat → Bool) (hashFn : Bytes → Bytes)
    (ser : NodeKey → Bytes)
    (putValueSet : List (Bytes × Option Bytes) → Nat → Bytes × NodeBatch)
    (cache : Cache) (newVersion : Nat) (s0 : StoreState) :
    (commit failAt hashFn ser putValueSet cache newVersion s0).1 = .error () ↔
      ∃ i < (commitOps hashFn ser putValueSet cache newVersion).length, failAt i = true := by
  unfold commit
  rcases hrun : runOps failAt (commitOps hashFn ser putValueSet cache newVersion) 0 s0
    with ⟨b, s1⟩
  have hiff := runOps_false_iff failAt (commitOps hashFn ser putValueSet cache newVersion) 0 s0
  rw [hrun] at hiff
  simp only [Nat.zero_add] at hiff
  cases b
  · simpa using hiff
  · simp only []
    constructor
    · intro hc
      exact absurd hc (by simp)
    · intro hex
      exact absurd (hiff.mpr hex) (by simp)

/-- C1 counterexample: with a single upsert in the change-set, letting the second
backing-store write fail makes `commit` return an error while the first write
(the preimage-index update) is already applied, so the observable state differs
from the pre-commit state — there is no single atomic batch undoing it. -/
theorem C1_counterexample :
    (commit (fun n => n == 1) (fun k => k) nodeKeySerModel (fun _ _ => ([0], ⟨[], []⟩))
        ⟨[([1], some [2])], []⟩ 0 emptyStore).1 = .error () ∧
      (commit (fun n => n == 1) (fun k => k) nodeKeySerModel (fun _ _ => ([0], ⟨[], []⟩))
          ⟨[([1], some [2])], []⟩ 0 emptyStore).2 ≠ emptyStore := by
  constructor
  · rfl
  · intro hc
    have : ([([1], [1])] : List (Bytes × Bytes)) = [] := congrArg StoreState.cfJmtKeys hc
    exact absurd this (by simp)

theorem runOps_noFail (ops : List WOp) (n : Nat) (s : StoreState) :
    runOps (fun _ => false) ops n s = (true, ops.foldl applyOp s) := by
  induction ops generalizing n s with
  | nil => rfl
  | cons op rest ih => simp [runOps, List.foldl_cons, ih]

theorem commit_noFail (hashFn : Bytes → Bytes) (ser : NodeKey → Bytes)
    (putValueSet : List (Bytes × Option Bytes) → Nat → Bytes × NodeBatch)
    (cache : Cache) (newVersion : Nat) (s0 : StoreState) :
    commit (fun _ => false) hashFn ser putValueSet cache newVersion s0
      = (.ok (putValueSet (cache.unwritten_changes.map (fun c => (hashFn c.1, c.2)))
            newVersion).1,
          (commitOps hashFn ser putValueSet cache newVersion).foldl applyOp s0) := by
  unfold commit
  rw [runOps_noFail]

theorem applyOp_cfJmtKeys (s : StoreState) (op : WOp) (h : op.cfId ≠ CfId.jmtKeys) :
    (applyOp s op).cfJmtKeys = s.cfJmtKeys := by
  cases op with
  | put cf k v => cases cf <;> first | rfl | exact absurd rfl h
  | del cf k => cases cf <;> first | rfl | exact absurd rfl h

theorem applyOp_cfJmtKeysByKeyhash (s : StoreState) (op : WOp)
    (h : op.cfId ≠ CfId.jmtKeysByKeyhash) :
    (applyOp s op).cfJmtKeysByKeyhash = s.cfJmtKeysByKeyhash := by
  cases op with
  | put cf k v => cases cf <;> first | rfl | exact absurd rfl h
  | del cf k => cases cf <;> first | rfl | exact absurd rfl h

theorem foldl_cfJmtKeys (ops : List WOp) (s : StoreState)
    (h : ∀ op ∈ ops, op.cfId ≠ CfId.jmtKeys) :
    (ops.foldl applyOp s).cfJmtKeys = s.cfJmtKeys := by
  induction ops generalizing s with
  | nil => rfl
  | cons op rest ih =>
    rw [List.foldl_cons, ih _ (fun o ho => h o (by simp [ho])),
      applyOp_cfJmtKeys s op (h op (by simp))]

theorem foldl_cfJmtKeysByKeyhash (ops : List WOp) (s : StoreState)
    (h : ∀ op ∈ ops, op.cfId ≠ CfId.jmtKeysByKeyhash) :
    (ops.foldl applyOp s).cfJmtKeysByKeyhash = s.cfJmtKeysByKeyhash := by
  induction ops generalizing s with
  | nil => rfl
  | cons op rest ih =>
    rw [List.foldl_cons, ih _ (fun o ho => h o (by simp [ho])),
      applyOp_cfJmtKeysByKeyhash s op (h op (by simp))]

theorem write_node_batch_ops_cfId (ser : NodeKey → Bytes) (batch : NodeBatch) (op : WOp)
    (h : op ∈ write_node_batch_ops ser batch) :
    op.cfId = CfId.jmt ∨ op.cfId = CfId.jmtValues := by
  rw [write_node_batch_ops] at h
  rcases List.mem_append.mp h with h1 | h2
  · rcases List.mem_map.mp h1 with ⟨n, -, rfl⟩
    exact Or.inl rfl
  · rcases List.mem_map.mp h2 with ⟨val, -, rfl⟩
    exact Or.inr rfl

theorem nonverifiableOps_cfId (changes : List (Bytes × Option Bytes)) (op : WOp)
    (h : op ∈ nonverifiableOps changes) : op.cfId = CfId.nonverifiable := by
  rw [nonverifiableOps] at h
  rcases List.mem_map.mp h with ⟨c, -, rfl⟩
  rcases c with ⟨k, v⟩
  cases v <;> rfl

/-- The node-batch and non-verifiable phases of a commit never touch the two
key-hash index column families. -/
theorem commit_tail_preserves_indices (ser : NodeKey → Bytes) (batch : NodeBatch)
    (nvChanges : List (Bytes × Option Bytes)) (s : StoreState) :
    ((nonverifiableOps nvChanges).foldl applyOp
        ((write_node_batch_ops ser batch).foldl applyOp s)).cfJmtKeys = s.cfJmtKeys ∧
      ((nonverifiableOps nvChanges).foldl applyOp
        ((write_node_batch_ops ser batch).foldl applyOp s)).cfJmtKeysByKeyhash
        = s.cfJmtKeysByKeyhash := by
  have hb1 : ∀ op ∈ write_node_batch_ops ser batch, op.cfId ≠ CfId.jmtKeys := by
    intro op hop
    rcases write_node_batch_ops_cfId ser batch op hop with h | h <;> simp [h]
  have hb2 : ∀ op ∈ write_node_batch_ops ser batch, op.cfId ≠ CfId.jmtKeysByKeyhash := by
    intro op hop
    rcases write_node_batch_ops_cfId ser batch op hop with h | h <;> simp [h]
  have hn1 : ∀ op ∈ nonverifiableOps nvChanges, op.cfId ≠ CfId.jmtKeys := by
    intro op hop
    simp [nonverifiableOps_cfId nvChanges op hop]
  have hn2 : ∀ op ∈ nonverifiableOps nvChanges, op.cfId ≠ CfId.jmtKeysByKeyhash := by
    intro op hop
    simp [nonverifiableOps_cfId nvChanges op hop]
  constructor
  · rw [foldl_cfJmtKeys _ _ hn1, foldl_cfJmtKeys _ _ hb1]
  · rw [foldl_cfJmtKeysByKeyhash _ _ hn2, foldl_cfJmtKeysByKeyhash _ _ hb2]

theorem indexOps_cons (hashFn : Bytes → Bytes) (c : Bytes × Option Bytes)
    (rest : List (Bytes × Option Bytes)) :
    indexOps hashFn (c :: rest) =
      (match c.2 with
        | some _ => [WOp.put .jmtKeys c.1 (hashFn c.1),
                     WOp.put .jmtKeysByKeyhash (hashFn c.1) c.1]
        | none => [WOp.del .jmtKeys c.1,
                   WOp.del .jmtKeysByKeyhash (hashFn c.1)]) ++ indexOps hashFn rest := by
  simp [indexOps]

/-- Processing index operations for changes that neither use key `K` nor hash to
`H` leaves the `K` entry of the preimage index and the `H` entry of the reverse
index untouched. -/
theorem indexOps_preserve (hashFn : Bytes → Bytes) (changes : List (Bytes × Option Bytes))
    (K H : Bytes) :
    ∀ s : StoreState, (∀ c ∈ changes, c.1 ≠ K) → (∀ c ∈ changes, hashFn c.1 ≠ H) →
      mapGet ((indexOps hashFn changes).foldl applyOp s).cfJmtKeys K
          = mapGet s.cfJmtKeys K ∧
        mapGet ((indexOps hashFn changes).foldl applyOp s).cfJmtKeysByKeyhash H
          = mapGet s.cfJmtKeysByKeyhash H := by
  induction changes with
  | nil => exact fun s _ _ => ⟨rfl, rfl⟩
  | cons c rest ih =>
    intro s hK hH
    rcases c with ⟨ck, cv⟩
    have hckK : ck ≠ K := hK (ck, cv) (by simp)
    have hckH : hashFn ck ≠ H := hH (ck, cv) (by simp)
    rw [indexOps_cons, List.foldl_append]
    cases cv with
    | some v =>
      simp only [List.foldl_cons, List.foldl_nil]
      rcases ih (applyOp (applyOp s (WOp.put .jmtKeys ck (hashFn ck)))
            (WOp.put .jmtKeysByKeyhash (hashFn ck) ck))
          (fun c hc => hK c (by simp [hc])) (fun c hc => hH c (by simp [hc]))
        with ⟨h1, h2⟩
      refine ⟨?_, ?_⟩
      · rw [h1]
        show mapGet (mapPut s.cfJmtKeys ck (hashFn ck)) K = mapGet s.cfJmtKeys K
        exact mapGet_put_other _ _ _ _ (Ne.symm hckK)
      · rw [h2]
        show mapGet (mapPut s.cfJmtKeysByKeyhash (hashFn ck) ck) H
          = mapGet s.cfJmtKeysByKeyhash H
        exact mapGet_put_other _ _ _ _ (Ne.symm hckH)
    | none =>
      simp only [List.foldl_cons, List.foldl_nil]
      rcases ih (applyOp (applyOp s (WOp.del .jmtKeys ck))
            (WOp.del .jmtKeysByKeyhash (hashFn ck)))
          (fun c hc => hK c (by simp [hc])) (fun c hc => hH c (by simp [hc]))
        with ⟨h1, h2⟩
      refine ⟨?_, ?_⟩
      · rw [h1]
        show mapGet (mapDel s.cfJmtKeys ck) K = mapGet s.cfJmtKeys K
        exact mapGet_del_other _ _ _ (Ne.symm hckK)
      · rw [h2]
        show mapGet (mapDel s.cfJmtKeysByKeyhash (hashFn ck)) H
          = mapGet s.cfJmtKeysByKeyhash H
        exact mapGet_del_other _ _ _ (Ne.symm hckH)

/-- After the index phase of a commit whose change-set upserts `K` (keys unique,
no other change hashing to `hashFn K`), the preimage index maps `K` to its hash
and the reverse index maps the hash back to `K`. -/
theorem indexOps_upsert (hashFn : Bytes → Bytes) (changes : List (Bytes × Option Bytes))
    (K V : Bytes) :
    ∀ s : StoreState, (changes.map Prod.fst).Nodup → (K, some V) ∈ changes →
      (∀ c ∈ changes, c.1 ≠ K → hashFn c.1 ≠ hashFn K) →
      mapGet ((indexOps hashFn changes).foldl applyOp s).cfJmtKeys K = some (hashFn K) ∧
        mapGet ((indexOps hashFn changes).foldl applyOp s).cfJmtKeysByKeyhash (hashFn K)
          = some K := by
  induction changes with
  | nil => exact fun s _ hm _ => absurd hm (by simp)
  | cons c rest ih =>
    intro s hnd hmem hcoll
    rcases c with ⟨ck, cv⟩
    simp only [List.map_cons, List.nodup_cons] at hnd
    by_cases hck : ck = K
    · subst hck
      have hKnotin : ∀ c ∈ rest, c.1 ≠ ck := by
        intro c hc heq
        exact hnd.1 (heq ▸ List.mem_map_of_mem Prod.fst hc)
      have hcv : cv = some V := by
        rcases List.mem_cons.mp hmem with he | hr
        · exact (Prod.mk.injEq _ _ _ _ ▸ he.symm).2
        · exact absurd (List.mem_map_of_mem Prod.fst hr) hnd.1
      subst hcv
      rw [indexOps_cons, List.foldl_append]
      simp only [List.foldl_cons, List.foldl_nil]
      have hH : ∀ c ∈ rest, hashFn c.1 ≠ hashFn ck :=
        fun c hc => hcoll c (by simp [hc]) (hKnotin c hc)
      rcases indexOps_preserve hashFn rest ck (hashFn ck)
          (applyOp (applyOp s (WOp.put .jmtKeys ck (hashFn ck)))
            (WOp.put .jmtKeysByKeyhash (hashFn ck) ck))
          hKnotin hH with ⟨h1, h2⟩
      refine ⟨?_, ?_⟩
      · rw [h1]
        show mapGet (mapPut s.cfJmtKeys ck (hashFn ck)) ck = some (hashFn ck)
        exact mapGet_put_self _ _ _
      · rw [h2]
        show mapGet (mapPut s.cfJmtKeysByKeyhash (hashFn ck) ck) (hashFn ck) = some ck
        exact mapGet_put_self _ _ _
    · have hmem2 : (K, some V) ∈ rest := by
        rcases List.mem_cons.mp hmem with he | hr
        · exact absurd (congrArg Prod.fst he).symm hck
        · exact hr
      rw [indexOps_cons, List.foldl_append]
      exact ih _ hnd.2 hmem2 (fun c hc hne => hcoll c (by simp [hc]) hne)

/-- After the index phase of a commit whose change-set deletes `K` (keys unique,
no other change hashing to `hashFn K`), both index entries for `K` are absent. -/
theorem indexOps_delete (hashFn : Bytes → Bytes) (changes : List (Bytes × Option Bytes))
    (K : Bytes) :
    ∀ s : StoreState, (changes.map Prod.fst).Nodup → (K, none) ∈ changes →
      (∀ c ∈ changes, c.1 ≠ K → hashFn c.1 ≠ hashFn K) →
      mapGet ((indexOps hashFn changes).foldl applyOp s).cfJmtKeys K = none ∧
        mapGet ((indexOps hashFn changes).foldl applyOp s).cfJmtKeysByKeyhash (hashFn K)
          = none := by
  induction changes with
  | nil => exact fun s _ hm _ => absurd hm (by simp)
  | cons c rest ih =>
    intro s hnd hmem hcoll
    rcases c with ⟨ck, cv⟩
    simp only [List.map_cons, List.nodup_cons] at hnd
    by_cases hck : ck = K
    · subst hck
      have hKnotin : ∀ c ∈ rest, c.1 ≠ ck := by
        intro c hc heq
        exact hnd.1 (heq ▸ List.mem_map_of_mem Prod.fst hc)
      have hcv : cv = none := by
        rcases List.mem_cons.mp hmem with he | hr
        · exact (Prod.mk.injEq _ _ _ _ ▸ he.symm).2
        · exact absurd (List.mem_map_of_mem Prod.fst hr) hnd.1
      subst hcv
      rw [indexOps_cons, List.foldl_append]
      simp only [List.foldl_cons, List.foldl_nil]
      have hH : ∀ c ∈ rest, hashFn c.1 ≠ hashFn ck :=
        fun c hc => hcoll c (by simp [hc]) (hKnotin c hc)
      rcases indexOps_preserve hashFn rest ck (hashFn ck)
          (applyOp (applyOp s (WOp.del .jmtKeys ck))
            (WOp.del .jmtKeysByKeyhash (hashFn ck)))
          hKnotin hH with ⟨h1, h2⟩
      refine ⟨?_, ?_⟩
      · rw [h1]
        show mapGet (mapDel s.cfJmtKeys ck) ck = none
        exact mapGet_del_self _ _
      · rw [h2]
        show mapGet (mapDel s.cfJmtKeysByKeyhash (hashFn ck)) (hashFn ck) = none
        exact mapGet_del_self _ _
    · have hmem2 : (K, none) ∈ rest := by
        rcases List.mem_cons.mp hmem with he | hr
        · exact absurd (congrArg Prod.fst he).symm hck
        · exact hr
      rw [indexOps_cons, List.foldl_append]
      exact ih _ hnd.2 hmem2 (fun c hc hne => hcoll c (by simp [hc]) hne)

/-- C7: after a commit (all backing-store writes succeeding) whose change-set
upserts key `K`, the preimage index maps `K` to `hashFn K` and the reverse index
maps `hashFn K` back to `K`; after a commit whose change-set deletes `K`, both
index entries for `K` are absent. Keys are unique within the change-set (the
caller's invariant) and no other change's key collides with `K` under the hash. -/
theorem C7_index_consistency (hashFn : Bytes → Bytes) (ser : NodeKey → Bytes)
    (putValueSet : List (Bytes × Option Bytes) → Nat → Bytes × NodeBatch)
    (cache : Cache) (newVersion : Nat) (s0 : StoreState) (K : Bytes)
    (hnd : (cache.unwritten_changes.map Prod.fst).Nodup)
    (hcoll : ∀ c ∈ cache.unwritten_changes, c.1 ≠ K → hashFn c.1 ≠ hashFn K) :
    (∀ V : Bytes, (K, some V) ∈ cache.unwritten_changes →
        mapGet ((commit (fun _ => false) hashFn ser putValueSet cache newVersion s0).2).cfJmtKeys
            K = some (hashFn K) ∧
          mapGet ((commit (fun _ => false) hashFn ser putValueSet cache newVersion
              s0).2).cfJmtKeysByKeyhash (hashFn K) = some K) ∧
      ((K, none) ∈ cache.unwritten_changes →
        mapGet ((commit (fun _ => false) hashFn ser putValueSet cache newVersion s0).2).cfJmtKeys
            K = none ∧
          mapGet ((commit (fun _ => false) hashFn ser putValueSet cache newVersion
              s0).2).cfJmtKeysByKeyhash (hashFn K) = none) := by
  rw [commit_noFail]
  simp only [commitOps, List.foldl_append]
  rcases commit_tail_preserves_indices ser
      (putValueSet (cache.unwritten_changes.map (fun c => (hashFn c.1, c.2))) newVersion).2
      cache.nonverifiable_changes
      ((indexOps hashFn cache.unwritten_changes).foldl applyOp s0) with ⟨ht1, ht2⟩
  rw [ht1, ht2]
  constructor
  · intro V hmem
    exact indexOps_upsert hashFn cache.unwritten_changes K V s0 hnd hmem hcoll
  · intro hmem
    exact indexOps_delete hashFn cache.unwritten_changes K s0 hnd hmem hcoll

/-- C7 witness: a concrete commit upserting key `[1]` and deleting key `[3]`
with hash `k ↦ 9 :: k`. -/
theorem C7_index_consistency_witness :
    mapGet ((commit (fun _ => false) (fun k => 9 :: k) nodeKeySerModel
        (fun _ _ => ([0], ⟨[], []⟩)) ⟨[([1], some [2]), ([3], none)], []⟩ 0
        emptyStore).2).cfJmtKeys [1] = some [9, 1] ∧
      mapGet ((commit (fun _ => false) (fun k => 9 :: k) nodeKeySerModel
          (fun _ _ => ([0], ⟨[], []⟩)) ⟨[([1], some [2]), ([3], none)], []⟩ 0
          emptyStore).2).cfJmtKeysByKeyhash [9, 1] = some [1] ∧
      mapGet ((commit (fun _ => false) (fun k => 9 :: k) nodeKeySerModel
          (fun _ _ => ([0], ⟨[], []⟩)) ⟨[([1], some [2]), ([3], none)], []⟩ 0
          emptyStore).2).cfJmtKeys [3] = none ∧
      mapGet ((commit (fun _ => false) (fun k => 9 :: k) nodeKeySerModel
          (fun _ _ => ([0], ⟨[], []⟩)) ⟨[([1], some [2]), ([3], none)], []⟩ 0
          emptyStore).2).cfJmtKeysByKeyhash [9, 3] = none := by
  have hup := (C7_index_consistency (fun k => 9 :: k) nodeKeySerModel
      (fun _ _ => ([0], ⟨[], []⟩)) ⟨[([1], some [2]), ([3], none)], []⟩ 0 emptyStore [1]
      (by decide) (by decide)).1 [2] (by decide)
  have hdel := (C7_index_consistency (fun k => 9 :: k) nodeKeySerModel
      (fun _ _ => ([0], ⟨[], []⟩)) ⟨[([1], some [2]), ([3], none)], []⟩ 0 emptyStore [3]
      (by decide) (by decide)).2 (by decide)
  exact ⟨hup.1, hup.2, hdel.1, hdel.2⟩

/-- C9: two commits over the same snapshot, version, and verifiable change-set
that differ only in their non-verifiable changes return the same root hash: the
non-verifiable partition never influences the root. -/
theorem C9_nonverifiable_isolation (failAt : Nat → Bool) (hashFn : Bytes → Bytes)
    (ser : NodeKey → Bytes)
    (putValueSet : List (Bytes × Option Bytes) → Nat → Bytes × NodeBatch)
    (c1 c2 : Cache) (newVersion : Nat) (s0 : StoreState) (r1 r2 : Bytes)
    (huc : c1.unwritten_changes = c2.unwritten_changes)
    (h1 : (commit failAt hashFn ser putValueSet c1 newVersion s0).1 = .ok r1)
    (h2 : (commit failAt hashFn ser putValueSet c2 newVersion s0).1 = .ok r2) :
    r1 = r2 := by
  unfold commit at h1 h2
  rcases hr1 : runOps failAt (commitOps hashFn ser putValueSet c1 newVersion) 0 s0 with ⟨b1, s1⟩
  rcases hr2 : runOps failAt (commitOps hashFn ser putValueSet c2 newVersion) 0 s0 with ⟨b2, s2⟩
  rw [hr1] at h1
  rw [hr2] at h2
  cases b1 <;> cases b2 <;> simp at h1 h2
  rw [← h1, ← h2, huc]

/-- C9 witness: the same verifiable upsert committed with and without an extra
non-verifiable write yields the same root hash. -/
theorem C9_nonverifiable_isolation_witness :
    (commit (fun _ => false) (fun k => 9 :: k) nodeKeySerModel (fun _ _ => ([0], ⟨[], []⟩))
        ⟨[([1], some [2])], []⟩ 0 emptyStore).1 = .ok [0] ∧
      (commit (fun _ => false) (fun k => 9 :: k) nodeKeySerModel (fun _ _ => ([0], ⟨[], []⟩))
          ⟨[([1], some [2])], [([7], some [8])]⟩ 0 emptyStore).1 = .ok [0] ∧
      ([0] : Bytes) = [0] :=
  ⟨rfl, rfl,
    C9_nonverifiable_isolation (fun _ => false) (fun k => 9 :: k) nodeKeySerModel
      (fun _ _ => ([0], ⟨[], []⟩)) ⟨[([1], some [2])], []⟩
      ⟨[([1], some [2])], [([7], some [8])]⟩ 0 emptyStore [0] [0] rfl rfl rfl⟩

/-! ## The value log: `get_value_option` -/

/-- Saturating increment on `u64`: `max_version.saturating_add(1)`. -/
def satAddOne (v : Nat) : Nat := min (v + 1) U64MAX

/-- Value of a little-endian digit string. -/
def leVal (bs : Bytes) : Nat := bs.foldr (fun b a => a * 256 + b) 0

/-- Parse of the `borsh`-encoded `Option<Vec<u8>>` stored in the value log
(`BorshDeserialize::try_from_slice`, which must consume the whole slice): tag 0
is an explicit tombstone, tag 1 a present value with its 4-byte little-endian
length. -/
def borshOptionParse : Bytes → Option (Option Bytes)
  | [0] => some none
  | 1 :: rest =>
    if rest.length < 4 then none
    else if leVal (rest.take 4) = (rest.drop 4).length then some (some (rest.drop 4)) else none
  | _ => none

/-- The bounded reverse range scan of `get_value_option`: filter the sorted
value-log column family to [lower, upper), position at the end
(`IteratorMode::End`), and deserialize the last entry's stored optional value. -/
def scanValueLog (cf : List (Bytes × Bytes)) (lower upper : Bytes) :
    Except String (Option Bytes) :=
  match (cf.filter (fun e => bytesLe lower e.1 && bytesLt e.1 upper)).getLast? with
  | none => .ok none
  | some e =>
    match borshOptionParse e.2 with
    | some maybeValue => .ok maybeValue
    | none => .error "failed to deserialize value"

/-- Embedding of `TreeReader::get_value_option` for `SubstoreSnapshot`: when
`max_version` is `u64::MAX` an exact-match lookup on the sentinel key is tried
first (a range upper bound beyond it is not encodable); otherwise, or on a miss,
the bounded range scan over [key_hash‖0, key_hash‖(max_version+1)) takes the
last entry. -/
def get_value_option (cfJmtValues : List (Bytes × Bytes)) (maxVersion : Nat)
    (keyHash : Bytes) : Except String (Option Bytes) :=
  match (if maxVersion == U64MAX
      then mapGet cfJmtValues (VersionedKeyHash.encode keyHash U64MAX)
      else none) with
  | some stored =>
    match borshOptionParse stored with
    | some maybeValue => .ok maybeValue
    | none => .error "failed to deserialize value"
  | none =>
    scanValueLog cfJmtValues (keyHash ++ beBytes 8 0)
      (keyHash ++ beBytes 8 (satAddOne maxVersion))

/-- The version of a value-log entry: the numeric value of the 8 bytes following
the 32-byte key hash in its key. -/
def entryVersion (e : Bytes × Bytes) : Nat := beVal (e.1.drop 32)

/-- The value-log entries for `keyHash` whose version is at most `maxVersion`. -/
def candidateEntries (cf : List (Bytes × Bytes)) (maxVersion : Nat) (keyHash : Bytes) :
    List (Bytes × Bytes) :=
  cf.filter (fun e => (e.1.take 32 == keyHash) && decide (entryVersion e ≤ maxVersion))

/-- The candidate entry with the greatest version. -/
def argmaxVersion : List (Bytes × Bytes) → Option (Bytes × Bytes)
  | [] => none
  | e :: rest =>
    match argmaxVersion rest with
    | none => some e
    | some e2 => some (if entryVersion e2 < entryVersion e then e else e2)

/-- Specification of value-at-or-before (§4.3): the value stored in the
value-log entry for `keyHash` whose version is the greatest version at most
`maxVersion`; absence when no such entry exists or the entry is a tombstone. -/
def valueAtOrBefore (cf : List (Bytes × Bytes)) (maxVersion : Nat) (keyHash : Bytes) :
    Option Bytes :=
  match argmaxVersion (candidateEntries cf maxVersion keyHash) with
  | none => none
  | some e => (borshOptionParse e.2).join

/-- A well-formed value-log entry: the key is a 32-byte key hash followed by an
8-byte big-endian version, and the stored value parses as a `borsh` optional
value. -/
def WFValueEntry (e : Bytes × Bytes) : Prop :=
  ∃ kh v, kh.length = 32 ∧ v < 2 ^ 64 ∧ e.1 = kh ++ beBytes 8 v ∧
    (borshOptionParse e.2).isSome

/-- The RocksDB invariant on a column family: keys strictly ascending in
bytewise lexicographic order. -/
def SortedKeys (cf : List (Bytes × Bytes)) : Prop :=
  List.Pairwise (fun a b => bytesLt a.1 b.1 = true) cf

theorem pow256_8 : (256 : Nat) ^ 8 = 2 ^ 64 := by norm_num

theorem U64MAX_lt : U64MAX < 2 ^ 64 := by
  rw [U64MAX]
  omega

theorem mapGet_some_mem (cf : List (Bytes × Bytes)) (k v : Bytes)
    (h : mapGet cf k = some v) : ∃ e ∈ cf, e.1 = k ∧ e.2 = v := by
  unfold mapGet at h
  cases hf : cf.find? (fun e => e.1 == k) with
  | none => rw [hf] at h; exact absurd h (by simp)
  | some e =>
    rw [hf] at h
    refine ⟨e, List.mem_of_find?_eq_some hf, ?_, ?_⟩
    · have := List.find?_some hf
      simpa using this
    · simpa using h

theorem mapGet_none_not_mem (cf : List (Bytes × Bytes)) (k : Bytes)
    (h : mapGet cf k = none) : ∀ e ∈ cf, e.1 ≠ k := by
  unfold mapGet at h
  cases hf : cf.find? (fun e => e.1 == k) with
  | none =>
    intro e he
    have := List.find?_eq_none.mp hf e he
    simpa using this
  | some e => rw [hf] at h; exact absurd h (by simp)

theorem getLast?_mem (l : List (Bytes × Bytes)) (e : Bytes × Bytes)
    (h : l.getLast? = some e) : e ∈ l := by
  have hne : l ≠ [] := by rintro rfl; simp at h
  rw [List.getLast?_eq_getLast_of_ne_nil hne] at h
  cases h
  exact List.getLast_mem hne

/-- The range-scan bound condition of `get_value_option`, evaluated on a
well-formed value-log entry: the bounds select exactly the entries keyed by
`kh` with version below the exclusive bound `B`. -/
theorem range_cond_eq (e : Bytes × Bytes) (kh : Bytes) (B : Nat)
    (hkh : kh.length = 32) (hB : B < 2 ^ 64) (hwf : WFValueEntry e) :
    (bytesLe (kh ++ beBytes 8 0) e.1 && bytesLt e.1 (kh ++ beBytes 8 B))
      = ((e.1.take 32 == kh) && decide (entryVersion e < B)) := by
  obtain ⟨kh2, v, hlen, hv, hkey, -⟩ := hwf
  have hver : entryVersion e = v := by
    rw [entryVersion, hkey, ← hlen, List.drop_left,
      beVal_beBytes 8 v (by rw [pow256_8]; exact hv)]
  have htake : (kh2 ++ beBytes 8 v).take 32 = kh2 := by
    rw [← hlen]
    exact List.take_left _ _
  rw [hver, hkey, htake,
    bytesLe_append_left kh kh2 _ _ (by rw [hkh, hlen]),
    bytesLt_append_left kh2 kh _ _ (by rw [hlen, hkh])]
  by_cases hkk : kh = kh2
  · subst hkk
    rw [if_pos rfl, if_pos rfl]
    have h0 : bytesLe (beBytes 8 0) (beBytes 8 v) = true :=
      (bytesLe_beBytes_iff 8 0 v (by norm_num) (by rw [pow256_8]; exact hv)).mpr (Nat.zero_le v)
    rw [h0, Bool.true_and]
    have hkhkh : (kh == kh) = true := by simp
    rw [hkhkh, Bool.true_and]
    by_cases hvB : v < B
    · rw [(bytesLt_beBytes_iff 8 v B (by rw [pow256_8]; exact hv)
        (by rw [pow256_8]; exact hB)).mpr hvB]
      simp [hvB]
    · have hf : bytesLt (beBytes 8 v) (beBytes 8 B) = false := by
        cases hb : bytesLt (beBytes 8 v) (beBytes 8 B)
        · rfl
        · exact absurd ((bytesLt_beBytes_iff 8 v B (by rw [pow256_8]; exact hv)
            (by rw [pow256_8]; exact hB)).mp hb) hvB
      rw [hf]
      simp [hvB]
  · rw [if_neg hkk, if_neg (fun hc => hkk hc.symm)]
    have hne : (kh2 == kh) = false := by
      simp only [beq_eq_false_iff_ne, ne_eq]
      exact fun hc => hkk hc.symm
    rw [hne, Bool.false_and]
    cases h12 : bytesLt kh kh2 with
    | false => rw [Bool.false_and]
    | true => rw [Bool.true_and]; exact bytesLt_asymm kh kh2 h12

theorem scan_filter_eq (cf : List (Bytes × Bytes)) (kh : Bytes) (B : Nat)
    (hkh : kh.length = 32) (hB : B < 2 ^ 64) (hwf : ∀ e ∈ cf, WFValueEntry e) :
    cf.filter (fun e => bytesLe (kh ++ beBytes 8 0) e.1 && bytesLt e.1 (kh ++ beBytes 8 B))
      = cf.filter (fun e => (e.1.take 32 == kh) && decide (entryVersion e < B)) :=
  List.filter_congr (fun e he => range_cond_eq e kh B hkh hB (hwf e he))

theorem candLt_eq_candidates_of_lt (cf : List (Bytes × Bytes)) (mv : Nat) (kh : Bytes) :
    cf.filter (fun e => (e.1.take 32 == kh) && decide (entryVersion e < mv + 1))
      = candidateEntries cf mv kh := by
  rw [candidateEntries]
  refine List.filter_congr ?_
  intro e he
  congr 1
  rw [decide_eq_decide]
  omega

theorem candLt_eq_candidates_of_miss (cf : List (Bytes × Bytes)) (kh : Bytes)
    (hwf : ∀ e ∈ cf, WFValueEntry e)
    (hmiss : mapGet cf (kh ++ beBytes 8 U64MAX) = none) :
    cf.filter (fun e => (e.1.take 32 == kh) && decide (entryVersion e < U64MAX))
      = candidateEntries cf U64MAX kh := by
  rw [candidateEntries]
  refine List.filter_congr ?_
  intro e he
  obtain ⟨kh2, v, hlen, hv, hkey, -⟩ := hwf e he
  have hver : entryVersion e = v := by
    rw [entryVersion, hkey, ← hlen, List.drop_left,
      beVal_beBytes 8 v (by rw [pow256_8]; exact hv)]
  by_cases ht : e.1.take 32 = kh
  · have hkh2 : kh2 = kh := by
      rw [hkey, ← hlen, List.take_left] at ht
      exact ht
    have hne : v ≠ U64MAX := by
      intro hc
      exact (mapGet_none_not_mem cf _ hmiss e he) (by rw [hkey, hkh2, hc])
    rw [hver]
    congr 1
    rw [decide_eq_decide]
    have hvle : v < 2 ^ 64 := hv
    rw [U64MAX] at *
    omega
  · have hf : (e.1.take 32 == kh) = false := by
      simp only [beq_eq_false_iff_ne, ne_eq]
      exact ht
    rw [hf, Bool.false_and, Bool.false_and]

theorem argmaxVersion_none_iff (l : List (Bytes × Bytes)) :
    argmaxVersion l = none ↔ l = [] := by
  cases l with
  | nil => simp [argmaxVersion]
  | cons e rest =>
    simp only [argmaxVersion]
    cases argmaxVersion rest <;> simp

theorem argmaxVersion_spec (l : List (Bytes × Bytes)) :
    ∀ m, argmaxVersion l = some m → m ∈ l ∧ ∀ e ∈ l, entryVersion e ≤ entryVersion m := by
  induction l with
  | nil =>
    intro m hm
    exact absurd hm (by simp [argmaxVersion])
  | cons e rest ih =>
    intro m hm
    rw [argmaxVersion] at hm
    cases har : argmaxVersion rest with
    | none =>
      rw [har] at hm
      have hrest : rest = [] := (argmaxVersion_none_iff rest).mp har
      subst hrest
      cases hm
      exact ⟨by simp, by simp⟩
    | some m2 =>
      rw [har] at hm
      have hm2 : (if entryVersion m2 < entryVersion e then e else m2) = m :=
        Option.some.inj hm
      rcases ih m2 har with ⟨hmem2, hbound2⟩
      by_cases hv : entryVersion m2 < entryVersion e
      · rw [if_pos hv] at hm2
        subst hm2
        refine ⟨by simp, ?_⟩
        intro e2 he2
        rcases List.mem_cons.mp he2 with rfl | hr
        · exact le_refl _
        · exact le_trans (hbound2 e2 hr) (le_of_lt hv)
      · rw [if_neg hv] at hm2
        subst hm2
        refine ⟨by simp [hmem2], ?_⟩
        intro e2 he2
        rcases List.mem_cons.mp he2 with rfl | hr
        · omega
        · exact hbound2 e2 hr

theorem pairwise_entryVersion_unique (l : List (Bytes × Bytes))
    (hs : List.Pairwise (fun a b => entryVersion a < entryVersion b) l) :
    ∀ a ∈ l, ∀ b ∈ l, entryVersion a = entryVersion b → a = b := by
  induction l with
  | nil =>
    intro a ha
    exact absurd ha (by simp)
  | cons e rest ih =>
    rw [List.pairwise_cons] at hs
    intro a ha b hb heq
    rcases List.mem_cons.mp ha with rfl | ha2 <;> rcases List.mem_cons.mp hb with rfl | hb2
    · rfl
    · exact absurd heq (by have := hs.1 b hb2; omega)
    · exact absurd heq (by have := hs.1 a ha2; omega)
    · exact ih hs.2 a ha2 b hb2 heq

theorem argmaxVersion_eq_getLast (l : List (Bytes × Bytes))
    (hs : List.Pairwise (fun a b => entryVersion a < entryVersion b) l) :
    argmaxVersion l = l.getLast? := by
  induction l with
  | nil => rfl
  | cons e rest ih =>
    rw [List.pairwise_cons] at hs
    simp only [argmaxVersion]
    rw [ih hs.2]
    cases rest with
    | nil => rfl
    | cons r rs =>
      rw [List.getLast?_cons_cons]
      have hne : (r :: rs).getLast? ≠ none := by
        rw [List.getLast?_eq_getLast_of_ne_nil (by simp)]
        simp
      cases hg : (r :: rs).getLast? with
      | none => exact absurd hg hne
      | some g =>
        have hgmem : g ∈ r :: rs := getLast?_mem _ _ hg
        have hlt : entryVersion e < entryVersion g := hs.1 g hgmem
        show some (if entryVersion g < entryVersion e then e else g) = some g
        rw [if_neg (by omega)]

theorem candidateEntries_mem (cf : List (Bytes × Bytes)) (mv : Nat) (kh : Bytes)
    (e : Bytes × Bytes) (h : e ∈ candidateEntries cf mv kh) :
    e ∈ cf ∧ e.1.take 32 = kh ∧ entryVersion e ≤ mv := by
  rw [candidateEntries] at h
  have hmem := List.mem_of_mem_filter h
  have hp := List.of_mem_filter h
  simp only [Bool.and_eq_true, beq_iff_eq, decide_eq_true_eq] at hp
  exact ⟨hmem, hp.1, hp.2⟩

theorem candidateEntries_sorted (cf : List (Bytes × Bytes)) (mv : Nat) (kh : Bytes)
    (hkh : kh.length = 32) (hwf : ∀ e ∈ cf, WFValueEntry e) (hs : SortedKeys cf) :
    List.Pairwise (fun a b => entryVersion a < entryVersion b)
      (candidateEntries cf mv kh) := by
  have hsf : List.Pairwise (fun a b => bytesLt a.1 b.1 = true) (candidateEntries cf mv kh) :=
    List.Pairwise.filter _ hs
  refine List.Pairwise.imp_of_mem ?_ hsf
  intro a b ha hb hab
  rcases candidateEntries_mem cf mv kh a ha with ⟨haf, hat, -⟩
  rcases candidateEntries_mem cf mv kh b hb with ⟨hbf, hbt, -⟩
  obtain ⟨kha, va, hlena, hva, hkeya, -⟩ := hwf a haf
  obtain ⟨khb, vb, hlenb, hvb, hkeyb, -⟩ := hwf b hbf
  have hka : kha = kh := by
    rw [hkeya, ← hlena, List.take_left] at hat
    exact hat
  have hkb : khb = kh := by
    rw [hkeyb, ← hlenb, List.take_left] at hbt
    exact hbt
  rw [hka] at hkeya
  rw [hkb] at hkeyb
  have hvera : entryVersion a = va := by
    rw [entryVersion, hkeya, ← hkh, List.drop_left,
      beVal_beBytes 8 va (by rw [pow256_8]; exact hva)]
  have hverb : entryVersion b = vb := by
    rw [entryVersion, hkeyb, ← hkh, List.drop_left,
      beVal_beBytes 8 vb (by rw [pow256_8]; exact hvb)]
  rw [hkeya, hkeyb, bytesLt_append_left kh kh _ _ rfl, if_pos rfl] at hab
  rw [hvera, hverb]
  exact (bytesLt_beBytes_iff 8 va vb (by rw [pow256_8]; exact hva)
    (by rw [pow256_8]; exact hvb)).mp hab

theorem scanValueLog_eq_spec (cf : List (Bytes × Bytes)) (mv : Nat) (kh : Bytes)
    (hkh : kh.length = 32) (hwf : ∀ e ∈ cf, WFValueEntry e) (hs : SortedKeys cf)
    (heq : cf.filter (fun e => bytesLe (kh ++ beBytes 8 0) e.1
        && bytesLt e.1 (kh ++ beBytes 8 (satAddOne mv))) = candidateEntries cf mv kh) :
    scanValueLog cf (kh ++ beBytes 8 0) (kh ++ beBytes 8 (satAddOne mv))
      = .ok (valueAtOrBefore cf mv kh) := by
  have hcs := candidateEntries_sorted cf mv kh hkh hwf hs
  rw [scanValueLog, heq, valueAtOrBefore, argmaxVersion_eq_getLast _ hcs]
  cases hg : (candidateEntries cf mv kh).getLast? with
  | none => rfl
  | some e =>
    have hmem : e ∈ cf := (candidateEntries_mem cf mv kh e (getLast?_mem _ _ hg)).1
    obtain ⟨-, -, -, -, -, hps⟩ := hwf e hmem
    show (match borshOptionParse e.2 with
        | some maybeValue => Except.ok maybeValue
        | none => Except.error "failed to deserialize value")
      = Except.ok (borshOptionParse e.2).join
    cases hp : borshOptionParse e.2 with
    | none => rw [hp] at hps; exact absurd hps (by simp)
    | some maybeValue => rfl

theorem get_value_option_unfold_max (cf : List (Bytes × Bytes)) (keyHash : Bytes) :
    get_value_option cf U64MAX keyHash
      = match mapGet cf (VersionedKeyHash.encode keyHash U64MAX) with
        | some stored =>
          (match borshOptionParse stored with
            | some maybeValue => Except.ok maybeValue
            | none => Except.error "failed to deserialize value")
        | none => scanValueLog cf (keyHash ++ beBytes 8 0)
            (keyHash ++ beBytes 8 (satAddOne U64MAX)) := rfl

theorem get_value_option_unfold_lt (cf : List (Bytes × Bytes)) (keyHash : Bytes)
    (maxVersion : Nat) (h : maxVersion ≠ U64MAX) :
    get_value_option cf maxVersion keyHash
      = scanValueLog cf (keyHash ++ beBytes 8 0)
          (keyHash ++ beBytes 8 (satAddOne maxVersion)) := by
  have hb : (maxVersion == U64MAX) = false := by simp [h]
  unfold get_value_option
  rw [hb, if_neg (by simp)]

/-- C2: `get_value_option` returns the value stored in the value-log entry for
`keyHash` whose version is the greatest version at most `maxVersion` (absence
when there is none, or the entry is a tombstone), computed by a bounded reverse
range scan over [key_hash‖0, key_hash‖(max_version+1)) taking the last entry,
with the `max_version = u64::MAX` case handled first by an exact-match lookup on
the sentinel key. Hypotheses: the key hash is 32 bytes, the version is
representable, and the value-log column family is key-sorted with well-formed
entries (the RocksDB and commit-path invariants). -/
theorem C2_get_value_option (cf : List (Bytes × Bytes)) (maxVersion : Nat) (keyHash : Bytes)
    (hkh : keyHash.length = 32) (hmv : maxVersion < 2 ^ 64)
    (hwf : ∀ e ∈ cf, WFValueEntry e) (hsorted : SortedKeys cf) :
    get_value_option cf maxVersion keyHash
      = .ok (valueAtOrBefore cf maxVersion keyHash) := by
  by_cases hmax : maxVersion = U64MAX
  · subst hmax
    rw [get_value_option_unfold_max]
    cases hget : mapGet cf (VersionedKeyHash.encode keyHash U64MAX) with
    | none =>
      have hsat : satAddOne U64MAX = U64MAX := by
        rw [satAddOne]
        omega
      have hmiss : mapGet cf (keyHash ++ beBytes 8 U64MAX) = none := hget
      have heq : cf.filter (fun e => bytesLe (keyHash ++ beBytes 8 0) e.1
            && bytesLt e.1 (keyHash ++ beBytes 8 (satAddOne U64MAX)))
          = candidateEntries cf U64MAX keyHash := by
        rw [hsat]
        exact (scan_filter_eq cf keyHash U64MAX hkh U64MAX_lt hwf).trans
          (candLt_eq_candidates_of_miss cf keyHash hwf hmiss)
      exact scanValueLog_eq_spec cf U64MAX keyHash hkh hwf hsorted heq
    | some stored =>
      show (match borshOptionParse stored with
          | some maybeValue => Except.ok maybeValue
          | none => Except.error "failed to deserialize value")
        = Except.ok (valueAtOrBefore cf U64MAX keyHash)
      obtain ⟨e, hemem, hekey, heval⟩ := mapGet_some_mem cf _ stored hget
      have hekey2 : e.1 = keyHash ++ beBytes 8 U64MAX := hekey
      obtain ⟨kh2, v2, hlen2, hv2, hkey2, hps⟩ := hwf e hemem
      have hpss : (borshOptionParse stored).isSome := by
        rw [← heval]
        exact hps
      have htake : e.1.take 32 = keyHash := by
        rw [hekey2, ← hkh]
        exact List.take_left _ _
      have hver : entryVersion e = U64MAX := by
        rw [entryVersion, hekey2, ← hkh, List.drop_left,
          beVal_beBytes 8 U64MAX (by rw [pow256_8]; exact U64MAX_lt)]
      have hecand : e ∈ candidateEntries cf U64MAX keyHash := by
        rw [candidateEntries, List.mem_filter]
        refine ⟨hemem, ?_⟩
        simp [htake, hver]
      have hcs := candidateEntries_sorted cf U64MAX keyHash hkh hwf hsorted
      cases hp : borshOptionParse stored with
      | none =>
        rw [hp] at hpss
        exact absurd hpss (by simp)
      | some sv =>
        suffices hspec : valueAtOrBefore cf U64MAX keyHash = sv by rw [hspec]
        simp only [valueAtOrBefore]
        cases ham : argmaxVersion (candidateEntries cf U64MAX keyHash) with
        | none =>
          rw [argmaxVersion_none_iff] at ham
          rw [ham] at hecand
          exact absurd hecand (by simp)
        | some m =>
          rcases argmaxVersion_spec _ m ham with ⟨hmmem, hmbound⟩
          have hm1 : entryVersion m ≤ U64MAX := (candidateEntries_mem _ _ _ m hmmem).2.2
          have hm2 : U64MAX ≤ entryVersion m := by
            rw [← hver]
            exact hmbound e hecand
          have hme : m = e := pairwise_entryVersion_unique _ hcs m hmmem e hecand (by omega)
          show (borshOptionParse m.2).join = sv
          rw [hme, heval, hp]
          rfl
  · rw [get_value_option_unfold_lt cf keyHash maxVersion hmax]
    have hlt : maxVersion < U64MAX := by
      rw [U64MAX]
      rw [U64MAX] at hmax
      omega
    have hsat : satAddOne maxVersion = maxVersion + 1 := by
      rw [satAddOne, U64MAX]
      rw [U64MAX] at hlt
      omega
    have heq : cf.filter (fun e => bytesLe (keyHash ++ beBytes 8 0) e.1
          && bytesLt e.1 (keyHash ++ beBytes 8 (satAddOne maxVersion)))
        = candidateEntries cf maxVersion keyHash := by
      rw [hsat]
      refine (scan_filter_eq cf keyHash (maxVersion + 1) hkh ?_ hwf).trans
        (candLt_eq_candidates_of_lt cf maxVersion keyHash)
      rw [U64MAX] at hlt
      omega
    exact scanValueLog_eq_spec cf maxVersion keyHash hkh hwf hsorted heq

/-- A concrete 32-byte key hash used by the C2 witness. -/
def khW : Bytes := List.replicate 32 7

/-- A concrete sorted, well-formed value-log column family used by the C2
witness: a present value at version 1 and a tombstone at version 3. -/
def cfW : List (Bytes × Bytes) :=
  [(khW ++ beBytes 8 1, [1, 1, 0, 0, 0, 5]), (khW ++ beBytes 8 3, [0])]

/-- C2 witness: on the concrete value log `cfW`, the lookup at max version 2
agrees with the specification and returns the version-1 value. -/
theorem C2_get_value_option_witness :
    get_value_option cfW 2 khW = .ok (valueAtOrBefore cfW 2 khW) ∧
      valueAtOrBefore cfW 2 khW = some [5] := by
  constructor
  · refine C2_get_value_option cfW 2 khW (by decide) (by decide) ?_ ?_
    · intro e he
      rcases List.mem_cons.mp he with rfl | he2
      · exact ⟨khW, 1, by decide, by decide, rfl, by decide⟩
      · rcases List.mem_cons.mp he2 with rfl | he3
        · exact ⟨khW, 3, by decide, by decide, rfl, by decide⟩
        · exact absurd he3 (by simp)
    · unfold SortedKeys
      decide
  · decide

end Penumbra
